import Mathlib

/-!
Shallow embedding of the certification-point-to-trail-course matching
heuristic of `frontend/src/components/TrailMap.tsx` (functions
`extractCertKeywords`, `matchesCertPoint`, the default-selection logic of
`fetchTrailData`, the hiding/advisory logic of `NationalParkMap`, and
`toggleCourse`).  JavaScript strings are modelled as `List Char`;
JavaScript `Set` objects built from arrays are modelled as lists with
insertion-order dedup (for selections, as `Finset ℕ`).
-/

namespace BYak

/-- The character class matched by the JavaScript regex `\s`
(ECMAScript WhiteSpace ∪ LineTerminator). -/
def isJsWhitespace (c : Char) : Bool :=
  c == '\x09' || c == '\x0a' || c == '\x0b' || c == '\x0c' || c == '\x0d' ||
  c == '\x20' || c.toNat == 0xa0 || c.toNat == 0x1680 ||
  (0x2000 ≤ c.toNat && c.toNat ≤ 0x200a) ||
  c.toNat == 0x2028 || c.toNat == 0x2029 || c.toNat == 0x202f ||
  c.toNat == 0x205f || c.toNat == 0x3000 || c.toNat == 0xfeff

/-- The character class of the split regex `[\s,/]` in `extractCertKeywords`. -/
def isSepChar (c : Char) : Bool :=
  isJsWhitespace c || c == ',' || c == '/'

/-- JavaScript `String.prototype.trim`: strip `\s` characters from both ends. -/
def jsTrim (s : List Char) : List Char :=
  ((s.dropWhile isJsWhitespace).reverse.dropWhile isJsWhitespace).reverse

/-- JavaScript `text.includes(pat)`: `pat` occurs contiguously in the text. -/
def jsIncludes (pat : List Char) : List Char → Bool
  | [] => pat.isEmpty
  | c :: cs => pat.isPrefixOf (c :: cs) || jsIncludes pat cs

/-- Fuel-indexed worker for `replaceAll`; the fuel is an upper bound on the
length of the remaining text, so the `0, s` branch is never reached when
called through `replaceAll`. -/
def replaceAllFuel (pat rep : List Char) : Nat → List Char → List Char
  | _, [] => []
  | 0, s => s
  | fuel + 1, c :: cs =>
    if pat.isPrefixOf (c :: cs) && !pat.isEmpty then
      rep ++ replaceAllFuel pat rep fuel (cs.drop (pat.length - 1))
    else
      c :: replaceAllFuel pat rep fuel cs

/-- JavaScript `s.replace(new RegExp(pat, 'g'), rep)` for a literal pattern:
left-to-right, non-overlapping global replacement. -/
def replaceAll (pat rep s : List Char) : List Char :=
  replaceAllFuel pat rep s.length s

/-- Fuel-indexed worker for `splitRuns`; `acc` holds the current token in
reverse.  The fuel is an upper bound on the length of the remaining text, so
the `0, c :: cs` branch is never reached when called through `splitRuns`. -/
def splitRunsGo (p : Char → Bool) : Nat → List Char → List Char → List (List Char)
  | _, acc, [] => [acc.reverse]
  | 0, acc, c :: cs => [acc.reverse ++ c :: cs]
  | fuel + 1, acc, c :: cs =>
    if p c then acc.reverse :: splitRunsGo p fuel [] (cs.dropWhile p)
    else splitRunsGo p fuel (c :: acc) cs

/-- JavaScript `s.split(/[class]+/)`: split on maximal runs of characters of
the class, keeping the (possibly empty) leading and trailing segments. -/
def splitRuns (p : Char → Bool) (s : List Char) : List (List Char) :=
  splitRunsGo p s.length [] s

/-- Embedding of `matchesCertPoint` from `TrailMap.tsx`: a course matches when some
keyword occurs (after `toLowerCase`) in `` `${courseName} ${detail}` ``;
an empty keyword list matches everything. -/
def matchesCertPoint (courseName detail : List Char) (keywords : List (List Char)) : Bool :=
  if keywords.length == 0 then true
  else
    let text := (courseName ++ " ".data ++ detail).map Char.toLower
    keywords.any fun kw => jsIncludes (kw.map Char.toLower) text

/-- Generalisation of `matchesCertPoint` in which the separator written
between course name and detail is a parameter; `matchesCertPoint` is the
instance at separator `" "`.  Used to state the spec's separator claim. -/
def matchesCertPointSep (sep courseName detail : List Char)
    (keywords : List (List Char)) : Bool :=
  if keywords.length == 0 then true
  else
    let text := (courseName ++ sep ++ detail).map Char.toLower
    keywords.any fun kw => jsIncludes (kw.map Char.toLower) text

/-- The stop-word removal pass of `extractCertKeywords`: replace every
occurrence of the literals `"정상석"`, `"/"`, `"인증"` (in that order) by a
single space. -/
def cleanedOf (cp : List Char) : List Char :=
  replaceAll "인증".data " ".data
    (replaceAll "/".data " ".data
      (replaceAll "정상석".data " ".data cp))

/-- The base-keyword list of `extractCertKeywords`: split the cleaned label
on `/[\s,/]+/`, trim each token, keep those of length at least 2. -/
def baseKeywordsOf (cp : List Char) : List (List Char) :=
  ((splitRuns isSepChar (cleanedOf cp)).map jsTrim).filter fun w => 2 ≤ w.length

/-- The regex test `/[봉산대]$/.test(kw)`: the keyword ends in one of the
three suffix characters. -/
def endsWithSuffixChar (kw : List Char) : Bool :=
  match kw.getLast? with
  | some c => c == '봉' || c == '산' || c == '대'
  | none => false

/-- Embedding of `Set.prototype.add` on a list kept in insertion order. -/
def insertUnique (acc : List (List Char)) (x : List Char) : List (List Char) :=
  if x ∈ acc then acc else acc ++ [x]

/-- One iteration of the keyword-expansion loop of `extractCertKeywords`:
add the base keyword, and when it has length ≥ 3 and ends in 봉/산/대
(`kw.length >= 3 && /[봉산대]$/.test(kw)`) also add the suffix-stripped
variant `kw.slice(0, -1)` provided it keeps length ≥ 2. -/
def expandStep (acc : List (List Char)) (kw : List Char) : List (List Char) :=
  if 3 ≤ kw.length ∧ endsWithSuffixChar kw = true then
    if 2 ≤ kw.dropLast.length then insertUnique (insertUnique acc kw) kw.dropLast
    else insertUnique acc kw
  else insertUnique acc kw

/-- The expanded keyword set (`Array.from(expandedKeywords)`), in insertion
order. -/
def expandedOf (cp : List Char) : List (List Char) :=
  (baseKeywordsOf cp).foldl expandStep []

/-- The literal summit keyword `"정상"`. -/
def jeongsang : List Char := "정상".data

/-- Embedding of `extractCertKeywords` from `TrailMap.tsx`.  A missing or empty
certification point yields the empty list; otherwise the expanded keywords,
with `"정상"` appended when not already present. -/
def extractCertKeywords : Option (List Char) → List (List Char)
  | none => []
  | some cp =>
    if cp = [] then []
    else
      let keywords := expandedOf cp
      if jeongsang ∈ keywords then keywords else keywords ++ [jeongsang]

/-- The `properties` of one GeoJSON trail feature, restricted to the fields
the matcher reads; `name` and `detail` may be absent in the JSON, which the
source defaults to `''` via `|| ''`. -/
structure CourseProps where
  name : Option (List Char)
  detail : Option (List Char)
deriving DecidableEq

/-- Embedding of `feature.properties.name || ''`. -/
def courseName (f : CourseProps) : List Char := f.name.getD []

/-- Embedding of `feature.properties.detail || ''`. -/
def courseDetail (f : CourseProps) : List Char := f.detail.getD []

/-- Whether one feature matches the keyword set, as computed both in
`fetchTrailData` and in `NationalParkMap`. -/
def matchesFeature (kws : List (List Char)) (f : CourseProps) : Bool :=
  matchesCertPoint (courseName f) (courseDetail f) kws

/-- Whether the course at index `i` matches; `false` past the end of the
feature list. -/
def courseMatchAt (kws : List (List Char)) (features : List CourseProps) (i : Nat) : Bool :=
  match features.get? i with
  | some f => matchesFeature kws f
  | none => false

/-- The `matchingIndices` array built by the `forEach` loop of
`fetchTrailData`: the indices of matching features, in increasing order. -/
def matchingIndices (kws : List (List Char)) (features : List CourseProps) : List Nat :=
  (List.range features.length).filter fun i => courseMatchAt kws features i

/-- The default course selection set by `fetchTrailData` after the
national-park data loads: the matching indices when there are any,
otherwise every index. -/
def defaultSelection (kws : List (List Char)) (features : List CourseProps) : List Nat :=
  if 0 < (matchingIndices kws features).length then matchingIndices kws features
  else List.range features.length

/-- Embedding of `courseMatches` from `NationalParkMap`: the per-feature match flags. -/
def courseMatchesList (kws : List (List Char)) (features : List CourseProps) : List Bool :=
  features.map (matchesFeature kws)

/-- Embedding of `matchingCount` from `NationalParkMap`:
`courseMatches.filter(Boolean).length`. -/
def matchingCount (kws : List (List Char)) (features : List CourseProps) : Nat :=
  ((courseMatchesList kws features).filter fun b => b).length

/-- The hiding rule of the course-list rendering in `NationalParkMap`
(`if (matchingCount > 0 && !isMatch) return null`): the button for index
`idx` is omitted from the primary course list exactly when this is true. -/
def hiddenFromPrimary (kws : List (List Char)) (features : List CourseProps)
    (idx : Nat) : Bool :=
  decide (0 < matchingCount kws features) &&
    !((courseMatchesList kws features).getD idx false)

/-- JavaScript truthiness of the optional `certificationPoint` string. -/
def strTruthy : Option (List Char) → Bool
  | none => false
  | some [] => false
  | some (_ :: _) => true

/-- The zero-match advisory of `NationalParkMap`
(`matchingCount === 0 && certificationPoint && <warning/>`): the warning
paragraph is rendered exactly when this is true. -/
def advisoryShown (label : Option (List Char)) (features : List CourseProps) : Bool :=
  decide (matchingCount (extractCertKeywords label) features = 0) && strTruthy label

/-- The keyword set computed inside `NationalParkMap`
(`const certKeywords = extractCertKeywords(certificationPoint)`), viewed as
a function of every prop the component receives; it reads only the label. -/
def npCertKeywords (label : Option (List Char)) (data : List CourseProps) :
    List (List Char) :=
  extractCertKeywords label

/-- Embedding of `toggleCourse` from `TrailMap.tsx`: copy the selection set, then delete
the index when present and insert it when absent. -/
def toggleCourse (i : ℕ) (s : Finset ℕ) : Finset ℕ :=
  if i ∈ s then s.erase i else insert i s

/-! ### Basic lemmas about the string primitives -/

/-- The predicate `jsIncludes` decides the contiguous-substring relation. -/
theorem jsIncludes_iff (pat text : List Char) :
    jsIncludes pat text = true ↔ pat <:+: text := by
  induction text with
  | nil =>
    simp [jsIncludes, List.isEmpty_iff]
  | cons c cs ih =>
    simp [jsIncludes, ih, List.infix_cons_iff]

/-! ### Claim C2: fail-open on the empty keyword set -/

/-- C2.  For every course name and detail (arbitrary strings), the matching
function returns `true` when the keyword list is empty. -/
theorem matches_fail_open (courseName detail : List Char) :
    matchesCertPoint courseName detail [] = true := rfl

/-! ### Claim C3: substring characterisation of the matcher -/

/-- C3.  For a non-empty keyword set, `matchesCertPoint` returns `true` iff
some keyword occurs case-insensitively as a contiguous substring of the
(space-separated, per §4.2 of the spec) concatenation of course name and
detail; and the concrete non-matching example from the spec evaluates to
`false`. -/
theorem matches_iff_substring (courseName detail : List Char)
    (kws : List (List Char)) (h : kws ≠ []) :
    (matchesCertPoint courseName detail kws = true ↔
      ∃ kw ∈ kws, (kw.map Char.toLower) <:+:
        ((courseName ++ " ".data ++ detail).map Char.toLower)) ∧
    matchesCertPoint "둘레길".data "단순 순환로".data
      ["천왕봉".data, "천왕".data] = false := by
  constructor
  · have hc : ¬((kws.length == 0) = true) := by
      simp [List.length_eq_zero, h]
    simp only [matchesCertPoint, if_neg hc, List.any_eq_true, jsIncludes_iff]
  · decide

/-- Witness for C3 at a concrete matching input. -/
theorem matches_iff_substring_witness :
    (matchesCertPoint "천왕봉 코스".data "지리산".data ["천왕봉".data] = true ↔
      ∃ kw ∈ ["천왕봉".data], (kw.map Char.toLower) <:+:
        (("천왕봉 코스".data ++ " ".data ++ "지리산".data).map Char.toLower)) ∧
    matchesCertPoint "둘레길".data "단순 순환로".data
      ["천왕봉".data, "천왕".data] = false :=
  matches_iff_substring "천왕봉 코스".data "지리산".data ["천왕봉".data] (by decide)

/-! ### Claim C5: summit keyword and empty-set characterisation -/

/-- C5.  The keyword extraction returns the empty set exactly for an absent
or empty label, and for every non-empty label the result contains the
literal `"정상"`. -/
theorem extract_empty_iff :
    (∀ label, extractCertKeywords label = [] ↔ label = none ∨ label = some []) ∧
    (∀ cp : List Char, cp ≠ [] → jeongsang ∈ extractCertKeywords (some cp)) := by
  have hmem : ∀ cp : List Char, cp ≠ [] → jeongsang ∈ extractCertKeywords (some cp) := by
    intro cp hcp
    simp only [extractCertKeywords, if_neg hcp]
    by_cases hj : jeongsang ∈ expandedOf cp
    · rw [if_pos hj]; exact hj
    · rw [if_neg hj]; simp
  refine ⟨?_, hmem⟩
  intro label
  match label with
  | none => simp [extractCertKeywords]
  | some cp =>
    by_cases hcp : cp = []
    · subst hcp; simp [extractCertKeywords]
    · constructor
      · intro he
        have := hmem cp hcp
        rw [he] at this
        exact absurd this (List.not_mem_nil _)
      · rintro (h | h)
        · exact absurd h (by simp)
        · exact absurd (Option.some.inj h) hcp

/-- Witness for C5 at a concrete non-empty label. -/
theorem extract_empty_iff_witness :
    jeongsang ∈ extractCertKeywords (some "한라산".data) :=
  extract_empty_iff.2 "한라산".data (by decide)

/-! ### Claim C8: determinism and independence of keyword extraction -/

/-- C8.  Keyword extraction is a pure function of the label: in the
national-park view it yields set-equal results for any two course data
inputs, and always equals `extractCertKeywords` of the label alone. -/
theorem keywords_deterministic :
    ∀ (label : Option (List Char)) (d₁ d₂ : List CourseProps),
      (∀ kw, kw ∈ npCertKeywords label d₁ ↔ kw ∈ npCertKeywords label d₂) ∧
      npCertKeywords label d₁ = extractCertKeywords label :=
  fun _ _ _ => ⟨fun _ => Iff.rfl, rfl⟩

/-! ### Claim C10: toggle frame condition and involution -/

/-- C10.  `toggleCourse i` changes only the membership of `i`, and applying
it twice restores the original selection set. -/
theorem toggle_frame_involution (s : Finset ℕ) (i : ℕ) :
    (∀ j, j ≠ i → (j ∈ toggleCourse i s ↔ j ∈ s)) ∧
    toggleCourse i (toggleCourse i s) = s := by
  constructor
  · intro j hj
    by_cases h : i ∈ s
    · simp [toggleCourse, h, Finset.mem_erase, hj]
    · simp [toggleCourse, h, Finset.mem_insert, hj]
  · by_cases h : i ∈ s
    · simp only [toggleCourse, if_pos h, if_neg (Finset.not_mem_erase i s)]
      exact Finset.insert_erase h
    · simp only [toggleCourse, if_neg h, if_pos (Finset.mem_insert_self i s)]
      exact Finset.erase_insert h

/-- Witness for C10 on a concrete selection set. -/
theorem toggle_frame_involution_witness :
    (1 ∈ toggleCourse 0 ({1} : Finset ℕ) ↔ 1 ∈ ({1} : Finset ℕ)) ∧
    toggleCourse 0 (toggleCourse 0 ({1} : Finset ℕ)) = {1} :=
  ⟨(toggle_frame_involution {1} 0).1 1 (by decide),
   (toggle_frame_involution {1} 0).2⟩

/-! ### Lemmas about the keyword-extraction pipeline -/

/-- Every token produced by `splitRunsGo` (given sufficient fuel and an
accumulator free of separator characters) is free of separator
characters. -/
theorem splitRunsGo_noSep (p : Char → Bool) :
    ∀ (fuel : Nat) (acc s : List Char), s.length ≤ fuel →
      (∀ c ∈ acc, p c = false) →
      ∀ t ∈ splitRunsGo p fuel acc s, ∀ c ∈ t, p c = false := by
  intro fuel
  induction fuel with
  | zero =>
    intro acc s hs hacc t ht c hc
    have hnil : s = [] := List.length_eq_zero.mp (Nat.le_zero.mp hs)
    subst hnil
    simp only [splitRunsGo, List.mem_singleton] at ht
    subst ht
    exact hacc c (List.mem_reverse.mp hc)
  | succ n ih =>
    intro acc s hs hacc t ht c hc
    cases s with
    | nil =>
      simp only [splitRunsGo, List.mem_singleton] at ht
      subst ht
      exact hacc c (List.mem_reverse.mp hc)
    | cons x xs =>
      have hxs : xs.length ≤ n := by
        simp only [List.length_cons] at hs; omega
      simp only [splitRunsGo] at ht
      by_cases hx : p x
      · rw [if_pos hx] at ht
        rcases List.mem_cons.mp ht with rfl | ht'
        · exact hacc c (List.mem_reverse.mp hc)
        · have hdw : (xs.dropWhile p).length ≤ n :=
            le_trans (List.Sublist.length_le (List.dropWhile_sublist p)) hxs
          exact ih [] (xs.dropWhile p) hdw (by simp) t ht' c hc
      · rw [if_neg hx] at ht
        have hacc' : ∀ d ∈ x :: acc, p d = false := by
          intro d hd
          rcases List.mem_cons.mp hd with rfl | hd'
          · exact Bool.eq_false_iff.mpr hx
          · exact hacc d hd'
        exact ih (x :: acc) xs hxs hacc' t ht c hc

/-- Tokens of `splitRuns` carry no separator characters. -/
theorem mem_splitRuns_noSep {p : Char → Bool} {s t : List Char}
    (ht : t ∈ splitRuns p s) : ∀ c ∈ t, p c = false :=
  splitRunsGo_noSep p s.length [] s le_rfl (by simp) t ht

/-- The function `dropWhile` leaves a list unchanged when no element satisfies the
predicate. -/
theorem dropWhile_eq_self_noSat {p : Char → Bool} {s : List Char}
    (h : ∀ c ∈ s, p c = false) : s.dropWhile p = s := by
  cases s with
  | nil => rfl
  | cons c cs =>
    rw [List.dropWhile_cons_of_neg]
    simp [h c (List.mem_cons_self c cs)]

/-- Trimming leaves a whitespace-free string unchanged. -/
theorem jsTrim_eq_self {s : List Char}
    (h : ∀ c ∈ s, isJsWhitespace c = false) : jsTrim s = s := by
  unfold jsTrim
  rw [dropWhile_eq_self_noSat h,
    dropWhile_eq_self_noSat (fun c hc => h c (List.mem_reverse.mp hc)),
    List.reverse_reverse]

/-- A base keyword has length at least 2 and contains no separator
character. -/
theorem mem_baseKeywords {cp kw : List Char} (h : kw ∈ baseKeywordsOf cp) :
    2 ≤ kw.length ∧ ∀ c ∈ kw, isSepChar c = false := by
  unfold baseKeywordsOf at h
  rw [List.mem_filter] at h
  obtain ⟨hmem, hlen⟩ := h
  rw [List.mem_map] at hmem
  obtain ⟨t, ht, rfl⟩ := hmem
  have hns : ∀ c ∈ t, isSepChar c = false := mem_splitRuns_noSep ht
  have hws : ∀ c ∈ t, isJsWhitespace c = false := by
    intro c hc
    have := hns c hc
    simp only [isSepChar, Bool.or_eq_false_iff] at this
    exact this.1.1
  rw [jsTrim_eq_self hws] at hlen ⊢
  exact ⟨by simpa using hlen, hns⟩

/-- Invariant carried through the expansion loop: length at least 2 and no
separator characters. -/
def GoodKw (kw : List Char) : Prop :=
  2 ≤ kw.length ∧ ∀ c ∈ kw, isSepChar c = false

/-- Membership after `insertUnique` comes from the accumulator or is the
inserted element. -/
theorem insertUnique_mem_cases {acc : List (List Char)} {x y : List Char}
    (h : y ∈ insertUnique acc x) : y ∈ acc ∨ y = x := by
  unfold insertUnique at h
  by_cases hx : x ∈ acc
  · rw [if_pos hx] at h; exact Or.inl h
  · rw [if_neg hx] at h
    rcases List.mem_append.mp h with h | h
    · exact Or.inl h
    · exact Or.inr (by simpa using h)

/-- The step `expandStep` preserves the `GoodKw` invariant. -/
theorem expandStep_good {acc : List (List Char)} {kw : List Char}
    (hacc : ∀ y ∈ acc, GoodKw y) (hkw : GoodKw kw) :
    ∀ y ∈ expandStep acc kw, GoodKw y := by
  have hins : ∀ y ∈ insertUnique acc kw, GoodKw y := by
    intro y hy
    rcases insertUnique_mem_cases hy with h | rfl
    · exact hacc y h
    · exact hkw
  intro y hy
  unfold expandStep at hy
  by_cases h3 : 3 ≤ kw.length ∧ endsWithSuffixChar kw = true
  · rw [if_pos h3] at hy
    by_cases h2 : 2 ≤ kw.dropLast.length
    · rw [if_pos h2] at hy
      rcases insertUnique_mem_cases hy with h | rfl
      · exact hins y h
      · refine ⟨h2, fun c hc => hkw.2 c ?_⟩
        rw [List.dropLast_eq_take] at hc
        exact List.take_subset _ _ hc
    · rw [if_neg h2] at hy; exact hins y hy
  · rw [if_neg h3] at hy; exact hins y hy

/-- The expansion fold preserves the `GoodKw` invariant. -/
theorem foldl_expand_good :
    ∀ (base acc : List (List Char)), (∀ y ∈ acc, GoodKw y) →
      (∀ kw ∈ base, GoodKw kw) →
      ∀ y ∈ base.foldl expandStep acc, GoodKw y := by
  intro base
  induction base with
  | nil => intro acc hacc _ y hy; exact hacc y (by simpa using hy)
  | cons kw base' ih =>
    intro acc hacc hbase y hy
    rw [List.foldl_cons] at hy
    exact ih (expandStep acc kw)
      (expandStep_good hacc (hbase kw (List.mem_cons_self kw base')))
      (fun k hk => hbase k (List.mem_cons_of_mem kw hk)) y hy

/-- The result of `insertUnique` contains the inserted element. -/
theorem mem_insertUnique_self (acc : List (List Char)) (x : List Char) :
    x ∈ insertUnique acc x := by
  unfold insertUnique
  by_cases h : x ∈ acc
  · rw [if_pos h]; exact h
  · rw [if_neg h]; simp

/-- The function `insertUnique` keeps existing members. -/
theorem mem_insertUnique_of_mem {acc : List (List Char)} {y : List Char}
    (x : List Char) (h : y ∈ acc) : y ∈ insertUnique acc x := by
  unfold insertUnique
  by_cases hx : x ∈ acc
  · rw [if_pos hx]; exact h
  · rw [if_neg hx]; exact List.mem_append_left _ h

/-- The step `expandStep` keeps existing members. -/
theorem mem_expandStep_of_mem {acc : List (List Char)} {y : List Char}
    (kw : List Char) (h : y ∈ acc) : y ∈ expandStep acc kw := by
  unfold expandStep
  split
  · split
    · exact mem_insertUnique_of_mem _ (mem_insertUnique_of_mem _ h)
    · exact mem_insertUnique_of_mem _ h
  · exact mem_insertUnique_of_mem _ h

/-- The expansion fold keeps existing members. -/
theorem mem_foldl_expand_of_mem :
    ∀ (base acc : List (List Char)) {y : List Char}, y ∈ acc →
      y ∈ base.foldl expandStep acc := by
  intro base
  induction base with
  | nil => intro acc y h; simpa using h
  | cons kw base' ih =>
    intro acc y h
    rw [List.foldl_cons]
    exact ih _ (mem_expandStep_of_mem kw h)

/-- When the suffix conditions hold, `expandStep` adds the stripped
variant. -/
theorem dropLast_mem_expandStep {acc : List (List Char)} {kw : List Char}
    (h3 : 3 ≤ kw.length) (hsuf : endsWithSuffixChar kw = true)
    (h2 : 2 ≤ kw.dropLast.length) : kw.dropLast ∈ expandStep acc kw := by
  unfold expandStep
  rw [if_pos ⟨h3, hsuf⟩, if_pos h2]
  exact mem_insertUnique_self _ _

/-- The stripped variant of any qualifying base keyword appears in the
expansion fold. -/
theorem dropLast_mem_foldl :
    ∀ (base acc : List (List Char)) {kw : List Char}, kw ∈ base →
      3 ≤ kw.length → endsWithSuffixChar kw = true →
      2 ≤ kw.dropLast.length →
      kw.dropLast ∈ base.foldl expandStep acc := by
  intro base
  induction base with
  | nil => intro acc kw h; exact absurd h (List.not_mem_nil kw)
  | cons k base' ih =>
    intro acc kw h h3 hsuf h2
    rw [List.foldl_cons]
    rcases List.mem_cons.mp h with rfl | h'
    · exact mem_foldl_expand_of_mem base' _ (dropLast_mem_expandStep h3 hsuf h2)
    · exact ih _ h' h3 hsuf h2

/-- Every expanded keyword survives into the final result of
`extractCertKeywords`. -/
theorem mem_extract_of_mem_expanded {cp kw : List Char} (hcp : cp ≠ [])
    (h : kw ∈ expandedOf cp) : kw ∈ extractCertKeywords (some cp) := by
  simp only [extractCertKeywords, if_neg hcp]
  by_cases hj : jeongsang ∈ expandedOf cp
  · rw [if_pos hj]; exact h
  · rw [if_neg hj]; exact List.mem_append_left _ h

/-! ### Claim C6: suffix stripping -/

/-- C6.  Every base keyword of length ≥ 3 ending in 봉/산/대 contributes its
suffix-stripped variant (when that keeps length ≥ 2) to the extracted set;
concretely, `extractCertKeywords "노인봉"` contains `"노인봉"` and
`"노인"`. -/
theorem suffix_stripping :
    (∀ (cp kw : List Char), cp ≠ [] → kw ∈ baseKeywordsOf cp →
      3 ≤ kw.length → endsWithSuffixChar kw = true →
      2 ≤ kw.dropLast.length →
      kw.dropLast ∈ extractCertKeywords (some cp)) ∧
    "노인봉".data ∈ extractCertKeywords (some "노인봉".data) ∧
    "노인".data ∈ extractCertKeywords (some "노인봉".data) := by
  refine ⟨?_, by decide, by decide⟩
  intro cp kw hcp hbase h3 hsuf h2
  exact mem_extract_of_mem_expanded hcp (dropLast_mem_foldl _ [] hbase h3 hsuf h2)

/-- Witness for C6 applying the general part at the concrete label. -/
theorem suffix_stripping_witness :
    "노인봉".data.dropLast ∈ extractCertKeywords (some "노인봉".data) :=
  suffix_stripping.1 "노인봉".data "노인봉".data (by decide) (by decide)
    (by decide) (by decide) (by decide)

/-! ### Claim C7: result guarantee for keyword extraction -/

/-- C7.  Every extracted keyword is non-empty, of length at least 2, and
fixed by trimming; the extraction is total by construction. -/
theorem extract_result_guarantee (label : Option (List Char)) (kw : List Char)
    (h : kw ∈ extractCertKeywords label) :
    kw ≠ [] ∧ 2 ≤ kw.length ∧ jsTrim kw = kw := by
  have hg : GoodKw kw := by
    match label with
    | none => exact absurd h (List.not_mem_nil kw)
    | some cp =>
      by_cases hcp : cp = []
      · subst hcp
        simp only [extractCertKeywords, if_pos rfl] at h
        exact absurd h (List.not_mem_nil kw)
      · simp only [extractCertKeywords, if_neg hcp] at h
        have hexp : ∀ y ∈ expandedOf cp, GoodKw y :=
          foldl_expand_good (baseKeywordsOf cp) [] (by simp)
            (fun k hk => ⟨(mem_baseKeywords hk).1, (mem_baseKeywords hk).2⟩)
        by_cases hj : jeongsang ∈ expandedOf cp
        · rw [if_pos hj] at h; exact hexp kw h
        · rw [if_neg hj] at h
          rcases List.mem_append.mp h with h | h
          · exact hexp kw h
          · have : kw = jeongsang := by simpa using h
            subst this
            exact ⟨by decide, by decide⟩
  refine ⟨?_, hg.1, ?_⟩
  · intro he
    rw [he] at hg
    exact absurd hg.1 (by decide)
  · refine jsTrim_eq_self fun c hc => ?_
    have := hg.2 c hc
    simp only [isSepChar, Bool.or_eq_false_iff] at this
    exact this.1.1

/-- Witness for C7 at a concrete label and keyword. -/
theorem extract_result_guarantee_witness :
    "천왕".data ≠ [] ∧ 2 ≤ "천왕".data.length ∧
      jsTrim "천왕".data = "천왕".data :=
  extract_result_guarantee (some "지리산 천왕봉".data) "천왕".data (by decide)

/-! ### Lemmas about the selection pipeline -/

/-- A matching index is in range. -/
theorem courseMatchAt_true_lt {kws : List (List Char)}
    {features : List CourseProps} {i : Nat}
    (h : courseMatchAt kws features i = true) : i < features.length := by
  by_contra hlt
  unfold courseMatchAt at h
  rw [List.get?_eq_none.mpr (Nat.le_of_not_lt hlt)] at h
  simp at h

/-- Membership in `matchingIndices` is exactly matching at that index. -/
theorem mem_matchingIndices {kws : List (List Char)}
    {features : List CourseProps} {i : Nat} :
    i ∈ matchingIndices kws features ↔ courseMatchAt kws features i = true := by
  unfold matchingIndices
  rw [List.mem_filter, List.mem_range]
  exact ⟨fun h => h.2, fun h => ⟨courseMatchAt_true_lt h, h⟩⟩

/-- In range, `courseMatchAt` is the per-feature matcher. -/
theorem courseMatchAt_eq_get {kws : List (List Char)}
    {features : List CourseProps} {i : Nat} (h : i < features.length) :
    courseMatchAt kws features i = matchesFeature kws (features.get ⟨i, h⟩) := by
  unfold courseMatchAt
  rw [List.get?_eq_get h]

/-- The count `matchingCount` vanishes exactly when no feature matches. -/
theorem matchingCount_zero_iff {kws : List (List Char)}
    {features : List CourseProps} :
    matchingCount kws features = 0 ↔
      ∀ f ∈ features, matchesFeature kws f = false := by
  unfold matchingCount courseMatchesList
  rw [List.length_eq_zero, List.filter_eq_nil_iff]
  constructor
  · intro h f hf
    have := h (matchesFeature kws f) (List.mem_map_of_mem _ hf)
    simpa using this
  · rintro h b hb
    rw [List.mem_map] at hb
    obtain ⟨f, hf, rfl⟩ := hb
    simp [h f hf]

/-- The count `matchingCount` vanishes exactly when no index matches. -/
theorem matchingCount_zero_iff_indices {kws : List (List Char)}
    {features : List CourseProps} :
    matchingCount kws features = 0 ↔
      ∀ i, courseMatchAt kws features i = false := by
  rw [matchingCount_zero_iff]
  constructor
  · intro h i
    unfold courseMatchAt
    cases heq : features.get? i with
    | none => rfl
    | some f => simpa using h f (List.get?_mem heq)
  · intro h f hf
    obtain ⟨i, hi⟩ := List.mem_iff_get?.mp hf
    have hcm := h i
    unfold courseMatchAt at hcm
    rw [hi] at hcm
    simpa using hcm

/-- The list `matchingIndices` is empty exactly when no index matches. -/
theorem matchingIndices_nil_iff {kws : List (List Char)}
    {features : List CourseProps} :
    matchingIndices kws features = [] ↔
      ∀ i, courseMatchAt kws features i = false := by
  constructor
  · intro h i
    cases hb : courseMatchAt kws features i with
    | false => rfl
    | true =>
      have := mem_matchingIndices.mpr hb
      rw [h] at this
      exact absurd this (List.not_mem_nil i)
  · intro h
    rw [List.eq_nil_iff_forall_not_mem]
    intro i hi
    have := mem_matchingIndices.mp hi
    rw [h i] at this
    exact absurd this (by decide)

/-- In range, the rendered match flag agrees with `courseMatchAt`. -/
theorem courseMatchesList_getD {kws : List (List Char)}
    {features : List CourseProps} {i : Nat} (h : i < features.length) :
    (courseMatchesList kws features).getD i false = courseMatchAt kws features i := by
  unfold courseMatchesList
  rw [List.getD_eq_get?, List.get?_map, courseMatchAt_eq_get h, List.get?_eq_get h]
  rfl

/-! ### Claim C1: default selection policy -/

/-- C1.  After loading national-park data: when at least one course matches
the label's keyword set, the default selection is exactly the matching
indices and exactly the non-matching courses are hidden from the primary
course list; when no course matches, the default selection is every course
index. -/
theorem selection_policy (label : Option (List Char))
    (features : List CourseProps) (hne : features ≠ []) :
    ((∃ i, courseMatchAt (extractCertKeywords label) features i = true) →
      (∀ i, i ∈ defaultSelection (extractCertKeywords label) features ↔
        courseMatchAt (extractCertKeywords label) features i = true) ∧
      (∀ i, i < features.length →
        (hiddenFromPrimary (extractCertKeywords label) features i = true ↔
          courseMatchAt (extractCertKeywords label) features i = false))) ∧
    ((∀ i, courseMatchAt (extractCertKeywords label) features i = false) →
      ∀ i, i ∈ defaultSelection (extractCertKeywords label) features ↔
        i < features.length) := by
  set kws := extractCertKeywords label with hk
  constructor
  · rintro ⟨j, hj⟩
    have hmem : j ∈ matchingIndices kws features := mem_matchingIndices.mpr hj
    have hpos : 0 < (matchingIndices kws features).length :=
      List.length_pos.mpr (List.ne_nil_of_mem hmem)
    refine ⟨fun i => ?_, fun i hi => ?_⟩
    · unfold defaultSelection
      rw [if_pos hpos]
      exact mem_matchingIndices
    · have hcpos : 0 < matchingCount kws features := by
        rcases Nat.eq_zero_or_pos (matchingCount kws features) with h0 | h
        · have := matchingCount_zero_iff_indices.mp h0 j
          rw [this] at hj
          exact absurd hj (by decide)
        · exact h
      unfold hiddenFromPrimary
      rw [courseMatchesList_getD hi]
      simp [hcpos]
  · intro hall i
    unfold defaultSelection
    rw [matchingIndices_nil_iff.mpr hall]
    simp

/-- Witness for C1 applying the matching branch at the spec's concrete
three-course example. -/
theorem selection_policy_witness :
    0 ∈ defaultSelection
      (extractCertKeywords (some "서석대 정상석/ 인왕봉 정상석".data))
      [⟨some "서석대코스".data, none⟩, ⟨some "인왕봉코스".data, none⟩,
       ⟨some "기타코스".data, none⟩] :=
  ((selection_policy (some "서석대 정상석/ 인왕봉 정상석".data)
      [⟨some "서석대코스".data, none⟩, ⟨some "인왕봉코스".data, none⟩,
       ⟨some "기타코스".data, none⟩] (by decide)).1
    ⟨0, by decide⟩).1 0 |>.mpr (by decide)

/-! ### Claim C4: zero-match advisory -/

/-- C4.  For a non-empty rendered course list, the advisory is shown exactly
when the number of matching courses is zero. -/
theorem advisory_iff_zero_matches (label : Option (List Char))
    (features : List CourseProps) (hne : features ≠ []) :
    advisoryShown label features = true ↔
      matchingCount (extractCertKeywords label) features = 0 := by
  unfold advisoryShown
  constructor
  · intro h
    exact of_decide_eq_true (Bool.and_eq_true_iff.mp h).1
  · intro h0
    rw [Bool.and_eq_true_iff]
    refine ⟨decide_eq_true h0, ?_⟩
    by_contra hf
    have hkw : extractCertKeywords label = [] := by
      match label with
      | none => rfl
      | some [] => rfl
      | some (c :: cs) => exact absurd rfl hf
    obtain ⟨f, hf0⟩ := List.exists_mem_of_ne_nil features hne
    have hmatch : matchesFeature (extractCertKeywords label) f = true := by
      rw [hkw]; rfl
    have := matchingCount_zero_iff.mp h0 f hf0
    rw [hmatch] at this
    exact absurd this (by decide)

/-- Witness for C4 at a concrete zero-match input. -/
theorem advisory_iff_zero_matches_witness :
    advisoryShown (some "미상봉".data) [⟨some "둘레길".data, none⟩] = true :=
  (advisory_iff_zero_matches (some "미상봉".data)
    [⟨some "둘레길".data, none⟩] (by decide)).mpr (by decide)

/-! ### Claim C9: separator (im)materiality -/

/-- An occurrence inside `x :: t` that cannot use `x` lies inside `t`. -/
theorem infix_of_cons_of_notMem {α : Type} {kw t : List α} {x : α}
    (h : kw <:+: x :: t) (hx : x ∉ kw) : kw <:+: t := by
  rcases h with ⟨s, r, hsr⟩
  cases s with
  | nil =>
    cases kw with
    | nil => exact List.nil_infix
    | cons y kw' =>
      simp only [List.nil_append, List.cons_append, List.cons.injEq] at hsr
      obtain ⟨rfl, -⟩ := hsr
      exact absurd (List.mem_cons_self _ _) hx
  | cons z s' =>
    simp only [List.cons_append, List.cons.injEq] at hsr
    exact ⟨s', r, hsr.2⟩

/-- An occurrence inside `s ++ b` that cannot touch `s` lies inside `b`. -/
theorem infix_drop_noMem {α : Type} (s : List α) {kw b : List α}
    (hno : ∀ c ∈ s, c ∉ kw) (h : kw <:+: s ++ b) : kw <:+: b := by
  induction s with
  | nil => simpa using h
  | cons c s' ih =>
    have h1 : kw <:+: s' ++ b :=
      infix_of_cons_of_notMem (by simpa using h) (hno c (List.mem_cons_self c s'))
    exact ih (fun d hd => hno d (List.mem_cons_of_mem c hd)) h1

/-- A prefix of `a ++ c :: b` that cannot contain `c` is a prefix of `a`. -/
theorem prefix_stop {α : Type} {kw a b : List α} {c : α}
    (h : kw <+: a ++ c :: b) (hc : c ∉ kw) : kw <+: a := by
  by_cases hlen : kw.length ≤ a.length
  · exact List.prefix_of_prefix_length_le h (List.prefix_append a (c :: b)) hlen
  · exfalso
    have h1 : a ++ [c] <+: a ++ c :: b := ⟨b, by simp⟩
    have h2 : a ++ [c] <+: kw := by
      refine List.prefix_of_prefix_length_le h1 h ?_
      simp only [List.length_append, List.length_cons, List.length_nil]
      omega
    exact hc (h2.subset (by simp))

/-- Splitting an occurrence around a non-empty middle block none of whose
elements may appear in the pattern. -/
theorem infix_middle_split {α : Type} {kw s b : List α}
    (hs : s ≠ []) (hno : ∀ c ∈ s, c ∉ kw) :
    ∀ a : List α, kw <:+: a ++ (s ++ b) → kw <:+: a ∨ kw <:+: b := by
  intro a
  induction a with
  | nil =>
    intro h
    exact Or.inr (infix_drop_noMem s hno (by simpa using h))
  | cons x a' ih =>
    intro h
    rcases List.infix_cons_iff.mp (by simpa using h) with hp | hi
    · left
      obtain ⟨c, s', rfl⟩ : ∃ c s', s = c :: s' := by
        cases s with
        | nil => exact absurd rfl hs
        | cons c s' => exact ⟨c, s', rfl⟩
      have hpre : kw <+: (x :: a') ++ c :: (s' ++ b) := by simpa using hp
      exact List.IsPrefix.isInfix (prefix_stop hpre (hno c (List.mem_cons_self c s')))
    · rcases ih hi with h1 | h1
      · exact Or.inl (List.infix_cons h1)
      · exact Or.inr h1

/-- For a keyword sharing no character with a non-empty separator, occurring
in the separated concatenation is occurring in the name or in the detail. -/
theorem sep_infix_iff {kw sep courseName detail : List Char}
    (hs : sep ≠ [])
    (hno : ∀ c ∈ sep.map Char.toLower, c ∉ kw.map Char.toLower) :
    (kw.map Char.toLower <:+:
      (courseName.map Char.toLower ++
        (sep.map Char.toLower ++ detail.map Char.toLower))) ↔
    (kw.map Char.toLower <:+: courseName.map Char.toLower ∨
      kw.map Char.toLower <:+: detail.map Char.toLower) := by
  constructor
  · exact infix_middle_split (by simpa using hs) hno _
  · rintro (h | h)
    · exact h.trans (List.IsPrefix.isInfix (List.prefix_append _ _))
    · refine h.trans ⟨courseName.map Char.toLower ++ sep.map Char.toLower, [], ?_⟩
      simp

/-- C9, counterexample.  The result of the matcher is *not* invariant under
changing the separator: a keyword that spans the name/detail boundary
distinguishes separator `"x"` from the source's separator `" "`. -/
theorem separator_matters :
    matchesCertPointSep "x".data "a".data "b".data ["axb".data] ≠
    matchesCertPointSep " ".data "a".data "b".data ["axb".data] := by decide

/-- C9, amended.  Replacing the separator does not change the matcher,
provided both separators are non-empty and no keyword shares a (lowered)
character with either separator — in particular for all keyword sets whose
keywords avoid both separators' characters. -/
theorem separator_amended (sep₁ sep₂ courseName detail : List Char)
    (kws : List (List Char))
    (h₁ : sep₁ ≠ []) (h₂ : sep₂ ≠ [])
    (hd₁ : ∀ kw ∈ kws, ∀ c ∈ sep₁.map Char.toLower, c ∉ kw.map Char.toLower)
    (hd₂ : ∀ kw ∈ kws, ∀ c ∈ sep₂.map Char.toLower, c ∉ kw.map Char.toLower) :
    matchesCertPointSep sep₁ courseName detail kws =
    matchesCertPointSep sep₂ courseName detail kws := by
  by_cases h0 : (kws.length == 0) = true
  · simp only [matchesCertPointSep, if_pos h0]
  · simp only [matchesCertPointSep, if_neg h0]
    rw [Bool.eq_iff_iff]
    simp only [List.any_eq_true, jsIncludes_iff, List.map_append,
      List.append_assoc]
    constructor
    · rintro ⟨kw, hkw, hinf⟩
      exact ⟨kw, hkw, (sep_infix_iff h₂ (hd₂ kw hkw)).mpr
        ((sep_infix_iff h₁ (hd₁ kw hkw)).mp hinf)⟩
    · rintro ⟨kw, hkw, hinf⟩
      exact ⟨kw, hkw, (sep_infix_iff h₁ (hd₁ kw hkw)).mpr
        ((sep_infix_iff h₂ (hd₂ kw hkw)).mp hinf)⟩

/-- Witness for the amended C9 at concrete separators and keywords. -/
theorem separator_amended_witness :
    matchesCertPointSep " ".data "천왕봉 코스".data "지리산".data
      ["천왕봉".data] =
    matchesCertPointSep "--".data "천왕봉 코스".data "지리산".data
      ["천왕봉".data] :=
  separator_amended " ".data "--".data "천왕봉 코스".data "지리산".data
    ["천왕봉".data] (by decide) (by decide) (by decide) (by decide)

end BYak
